import Mathlib

/-!
Verification of the labeled homomorphic encryption layer of
`lattigo-labeling` (`src/labeling/labeling.go`) against its specification.

The underlying BGV scheme is an external collaborator (spec section 6): a BGV
ciphertext is modelled ideally by the `Z_t` slot vector it decrypts to, and the
BGV evaluator primitives (`Add`, `Mul`, `MulRelin`, ...) act slot-wise mod `t`
on those vectors.  The labeling layer's own arithmetic, which Go performs on
`uint64` values, is embedded with explicit `% 2^64` wraparound.  The PRNG is
modelled by explicit streams of sampled values.  A Go call has three possible
outcomes: a normal return, a returned error, or a runtime panic (e.g. a slice
index out of range); these are distinguished by the `Outcome` type.
-/

namespace Labeling

/-- Modulus of Go `uint64` arithmetic, 2^64. -/
def U64 : Nat := 18446744073709551616

/-- Go `uint64` addition `a + b` (wraparound), for operands below 2^64. -/
def u64add (a b : Nat) : Nat := (a + b) % U64

/-- Go `uint64` multiplication `a * b` (wraparound), for operands below 2^64. -/
def u64mul (a b : Nat) : Nat := (a * b) % U64

/-- Go `uint64` subtraction `a - b` (wraparound), for operands below 2^64. -/
def u64sub (a b : Nat) : Nat := (a + U64 - b) % U64

/-- Outcome of a Go function call: normal return value, returned non-nil
error, or runtime panic (slice index out of range). -/
inductive Outcome (α : Type) where
  | ok : α → Outcome α
  | err : Outcome α
  | panic : Outcome α
deriving DecidableEq, Repr

/-- A BGV ciphertext, modelled ideally by the slot vector it decrypts to
(spec section 6: the BGV provider is external, with standard BGV semantics).
The operations keep entries reduced mod `t`. -/
abbrev Ct := List Nat

/-- The parameter facade (labeling.go:42): slot count `MaxSlots()` and
plaintext modulus `PlaintextModulus()` are all the labeling routines use. -/
structure Parameters where
  maxSlots : Nat
  plaintextModulus : Nat
deriving DecidableEq, Repr

/-- The BGV parameter literal handed to `bgv.NewParametersFromLiteral`
(labeling.go:48-53). -/
structure ParametersLiteral where
  logN : Nat
  logQ : List Nat
  logP : List Nat
  plaintextModulus : Nat
deriving DecidableEq, Repr

/-- `NewParametersFromLiteral` (labeling.go:47-60).  NOTE: the Go body ignores
all four arguments and hardcodes the literal
`LogN=14, LogQ=[56,55,55,54,54,54], LogP=[55,55], PlaintextModulus=0x3ee0001`. -/
def NewParametersFromLiteral (logN : Nat) (LogQ : List Nat) (LogP : List Nat)
    (PlaintextModulus : Nat) : ParametersLiteral :=
  { logN := 14
    logQ := [56, 55, 55, 54, 54, 54]
    logP := [55, 55]
    plaintextModulus := 0x3ee0001 }

/-- The accessors the labeling layer reads off the wrapped BGV parameters:
`MaxSlots() = N/2 = 2^(logN-1)` and `PlaintextModulus()`. -/
def paramsOf (L : ParametersLiteral) : Parameters :=
  { maxSlots := 2 ^ (L.logN - 1), plaintextModulus := L.plaintextModulus }

/-- A labeled ciphertext in the clear-label shape (`PlaintextLabeledciphertext`,
labeling.go:32-38): `elementsA` is the clear label vector, `elementB` the beta
bundle (a list of terms, each a list of BGV ciphertexts). -/
structure PlaintextLabeledciphertext where
  elementsA : List Nat
  elementB : List (List Ct)
deriving DecidableEq, Repr

/-- A labeled ciphertext in the encrypted-label shape
(`CiphertextLabeledciphertext`, labeling.go:39): `elementsA` is a single BGV
ciphertext (alpha), `elementB` the beta bundle. -/
structure CiphertextLabeledciphertext where
  elementsA : Ct
  elementB : List (List Ct)
deriving DecidableEq, Repr

/-- Ideal-BGV encode-and-view of a `Z_t` slot vector as a plaintext of
`MaxSlots` slots (lattigo `Encoder.Encode`): entries reduced mod `t`, short
vectors zero-padded.  Encrypting a plaintext yields, in the ideal model, the
same slot vector. -/
def encodeVec (p : Parameters) (v : List Nat) : Ct :=
  (List.range p.maxSlots).map fun i => v.getD i 0 % p.plaintextModulus

/-- Ideal-BGV `Evaluator.Add` on two ciphertexts: slot-wise addition mod t. -/
def ctAdd (p : Parameters) (c1 c2 : Ct) : Ct :=
  (List.range p.maxSlots).map fun i =>
    (c1.getD i 0 + c2.getD i 0) % p.plaintextModulus

/-- Ideal-BGV `Evaluator.MulRelin` on two ciphertexts: slot-wise product mod t. -/
def ctMulRelin (p : Parameters) (c1 c2 : Ct) : Ct :=
  (List.range p.maxSlots).map fun i =>
    (c1.getD i 0 * c2.getD i 0) % p.plaintextModulus

/-- Ideal-BGV `Evaluator.Mul` of a ciphertext by a plaintext slot vector: the
vector is encoded (reduced mod t, zero-padded) and multiplied slot-wise. -/
def ctMulPt (p : Parameters) (c : Ct) (v : List Nat) : Ct :=
  (List.range p.maxSlots).map fun i =>
    (c.getD i 0 * (v.getD i 0 % p.plaintextModulus)) % p.plaintextModulus

/-- Ideal-BGV `Evaluator.Add` of a ciphertext and a plaintext slot vector. -/
def ctAddPt (p : Parameters) (c : Ct) (v : List Nat) : Ct :=
  (List.range p.maxSlots).map fun i =>
    (c.getD i 0 + v.getD i 0 % p.plaintextModulus) % p.plaintextModulus

/-- The label expression of `Encrypt` (labeling.go:95): Go `uint64` evaluation
of `(value[i] - mask + t) % t`. -/
def encryptLabel (t v b : Nat) : Nat := u64add (u64sub v b) t % t

/-- The label expression of `Mult` (labeling.go:238): Go `uint64` evaluation
of `(a1[i]*a2[i] - r[i] + t) % t`. -/
def multLabel (t a1 a2 r : Nat) : Nat := u64add (u64sub (u64mul a1 a2) r) t % t

/-- `Encrypt` (labeling.go:77-120): for each slot `i` in `[0, MaxSlots)` a mask
`b_i` is sampled, the label `a_i = (value[i] - b_i + t) % t` is stored, and the
mask vector is encoded and encrypted as the single beta (`B = [[beta]]`).
Indexing `value[i]` with `i >= len(value)` is a runtime panic.  The rejection
sampler's outputs are modelled by the stream `masks`. -/
def Encrypt (p : Parameters) (value : List Nat) (masks : Nat → Nat) :
    Outcome PlaintextLabeledciphertext :=
  if p.maxSlots ≤ value.length then
    Outcome.ok
      { elementsA := (List.range p.maxSlots).map fun i =>
          encryptLabel p.plaintextModulus (value.getD i 0) (masks i)
        elementB := [[encodeVec p ((List.range p.maxSlots).map masks)]] }
  else Outcome.panic

/-- `Decrypt` (labeling.go:123-139): decrypt and decode the single beta into a
`MaxSlots` buffer, then return `(a_i + b_i + t) % t` per label slot.  Accessing
`elementB[0][0]` on an empty bundle, or `maskResult[i]` with
`i >= MaxSlots`, is a runtime panic. -/
def Decrypt (p : Parameters) (lc : PlaintextLabeledciphertext) :
    Outcome (List Nat) :=
  match lc.elementB with
  | (beta :: _) :: _ =>
    if lc.elementsA.length ≤ p.maxSlots then
      Outcome.ok ((List.range lc.elementsA.length).map fun i =>
        u64add (u64add (lc.elementsA.getD i 0) (beta.getD i 0))
            p.plaintextModulus % p.plaintextModulus)
    else Outcome.panic
  | _ => Outcome.panic

/-- `Sum` (labeling.go:189-211): labels added slot-wise mod t over the length
of the first operand's label vector (indexing the second operand's labels
panics if that vector is shorter); betas added under BGV. -/
def Sum (p : Parameters) (lc1 lc2 : PlaintextLabeledciphertext) :
    Outcome PlaintextLabeledciphertext :=
  if lc1.elementsA.length ≤ lc2.elementsA.length then
    match lc1.elementB, lc2.elementB with
    | (b1 :: _) :: _, (b2 :: _) :: _ =>
      Outcome.ok
        { elementsA := (List.range lc1.elementsA.length).map fun i =>
            u64add (lc1.elementsA.getD i 0) (lc2.elementsA.getD i 0)
              % p.plaintextModulus
          elementB := [[ctAdd p b1 b2]] }
    | _, _ => Outcome.panic
  else Outcome.panic

/-- `Mult` (labeling.go:214-303): a fresh re-randomisation vector `r` of
`MaxSlots` samples is drawn (stream `rands`); the output label is
`(a1[i]*a2[i] - r[i] + t) % t` (panics: indexing `a2[i]` past its length, or
`r[i]` with `i >= MaxSlots`); the output beta is
`MulRelin(b1, b2) + Mul(b1, a2) + Mul(b2, a1) + Enc(r)` (the plaintext-vector
`Mul` returns a BGV error when the vector is longer than `MaxSlots`). -/
def Mult (p : Parameters) (lc1 lc2 : PlaintextLabeledciphertext)
    (rands : Nat → Nat) : Outcome PlaintextLabeledciphertext :=
  if lc1.elementsA.length ≤ lc2.elementsA.length ∧
      lc1.elementsA.length ≤ p.maxSlots then
    match lc1.elementB, lc2.elementB with
    | (b1 :: _) :: _, (b2 :: _) :: _ =>
      if lc2.elementsA.length ≤ p.maxSlots then
        Outcome.ok
          { elementsA := (List.range lc1.elementsA.length).map fun i =>
              multLabel p.plaintextModulus (lc1.elementsA.getD i 0)
                (lc2.elementsA.getD i 0) (rands i)
            elementB := [[ctAdd p
              (ctAdd p
                (ctAdd p (ctMulRelin p b1 b2) (ctMulPt p b1 lc2.elementsA))
                (ctMulPt p b2 lc1.elementsA))
              (encodeVec p ((List.range p.maxSlots).map rands))]] }
      else Outcome.err
    | _, _ => Outcome.panic
  else Outcome.panic

/-- `MultOverflow` (labeling.go:306-367): the clear product
`p[i] = (a1[i]*a2[i]) % t` is computed (panics if the second label vector is
shorter than the first), encoded and encrypted to `gamma` (BGV error if the
product vector is longer than `MaxSlots`); the encrypted-shape label is
`alpha = gamma + Mul(b2, a1) + Mul(b1, a2)` and the beta bundle is
`[[b1, b2]]`. -/
def MultOverflow (p : Parameters) (lc1 lc2 : PlaintextLabeledciphertext) :
    Outcome CiphertextLabeledciphertext :=
  if lc1.elementsA.length ≤ lc2.elementsA.length then
    if lc1.elementsA.length ≤ p.maxSlots then
      match lc2.elementB, lc1.elementB with
      | (b2 :: _) :: _, (b1 :: _) :: _ =>
        if lc2.elementsA.length ≤ p.maxSlots then
          Outcome.ok
            { elementsA := ctAdd p
                (ctAdd p
                  (encodeVec p ((List.range lc1.elementsA.length).map fun i =>
                    u64mul (lc1.elementsA.getD i 0) (lc2.elementsA.getD i 0)
                      % p.plaintextModulus))
                  (ctMulPt p b2 lc1.elementsA))
                (ctMulPt p b1 lc2.elementsA)
              elementB := [[b1, b2]] }
        else Outcome.err
      | _, _ => Outcome.panic
    else Outcome.err
  else Outcome.panic

/-- `SumOverflow` (labeling.go:370-396): mixed sum of an encrypted-shape and a
clear-shape operand; the clear label is added into alpha as a plaintext slot
vector (BGV error if it is longer than `MaxSlots`) and the bundles
concatenate. -/
def SumOverflow (p : Parameters) (lc1 : CiphertextLabeledciphertext)
    (lc2 : PlaintextLabeledciphertext) : Outcome CiphertextLabeledciphertext :=
  if lc2.elementsA.length ≤ p.maxSlots then
    Outcome.ok
      { elementsA := ctAddPt p lc1.elementsA lc2.elementsA
        elementB := lc1.elementB ++ lc2.elementB }
  else Outcome.err

/-- `SumOverflowCiphertext` (labeling.go:399-426): alphas added under BGV,
bundles concatenated. -/
def SumOverflowCiphertext (p : Parameters)
    (lc1 lc2 : CiphertextLabeledciphertext) : CiphertextLabeledciphertext :=
  { elementsA := ctAdd p lc1.elementsA lc2.elementsA
    elementB := lc1.elementB ++ lc2.elementB }

/-- Inner loop of `DecryptOverflow` (labeling.go:155-171): the slot-wise
product (Go `uint64` arithmetic, reduced mod t) of the decrypted betas of one
term, starting from the all-ones vector. -/
def termProdVec (p : Parameters) (term : List Ct) : List Nat :=
  term.foldl
    (fun multBetas beta => (List.range p.maxSlots).map fun k =>
      u64mul (multBetas.getD k 0) (beta.getD k 0) % p.plaintextModulus)
    ((List.range p.maxSlots).map fun _ => 1)

/-- Outer loop of `DecryptOverflow` (labeling.go:153-176): slot-wise sum mod t
of the per-term products, starting from the all-zeros vector. -/
def sumBetasVec (p : Parameters) (B : List (List Ct)) : List Nat :=
  B.foldl
    (fun sumBetas term => (List.range p.maxSlots).map fun k =>
      u64add (sumBetas.getD k 0) ((termProdVec p term).getD k 0)
        % p.plaintextModulus)
    ((List.range p.maxSlots).map fun _ => 0)

/-- `DecryptOverflow` (labeling.go:142-186): decrypt alpha, add the sum over
bundle terms of the product of the term's decrypted betas, return
`(alpha[i] + sum[i] + t) % t` per slot. -/
def DecryptOverflow (p : Parameters) (lc : CiphertextLabeledciphertext) :
    List Nat :=
  (List.range p.maxSlots).map fun i =>
    u64add (u64add (lc.elementsA.getD i 0) ((sumBetasVec p lc.elementB).getD i 0))
      p.plaintextModulus % p.plaintextModulus

/-- Slot-level version of `termProdVec` used in proofs. -/
def termProd (p : Parameters) (i : Nat) (term : List Ct) : Nat :=
  term.foldl (fun mb beta => u64mul mb (beta.getD i 0) % p.plaintextModulus) 1

/-- Slot-level version of `sumBetasVec` used in proofs. -/
def sumBetas (p : Parameters) (i : Nat) (B : List (List Ct)) : Nat :=
  B.foldl (fun s term => u64add s (termProd p i term) % p.plaintextModulus) 0

/-- `ring.RandUniform` (spec section 4.3 and section 6): mask each raw 64-bit
draw with `mask`, reject values `>= max`, return the first accepted sample.
The raw PRNG output is modelled by the list `raws` (the observed prefix of
draws); `none` models the rejection loop not having accepted yet. -/
def randUniform (raws : List Nat) (max mask : Nat) : Option Nat :=
  (raws.map fun x => x &&& mask).find? fun y => decide (y < max)

/-- The sampling bound of `Encrypt` and `Mult` (labeling.go:92,228):
`uint64(math.Sqrt(float64(t)))`.  For the only modulus the parameter facade
produces, `t = 0x3ee0001`, the correctly rounded double sqrt truncates to
`Nat.sqrt t = 8119` (the true sqrt lies strictly between 8119 and 8120). -/
def sqrtT (t : Nat) : Nat := Nat.sqrt t

/-- The bit mask of the rejection sampler (labeling.go:92,228):
`(1 << bits.Len64(max)) - 1` where `max = sqrtT t`. -/
def maskT (t : Nat) : Nat := 2 ^ Nat.size (sqrtT t) - 1

/-- The two-half column-rotation permutation of BGV slots (spec section 4.12
and the expected-value computation in src/examples/rotate/main.go:78-91):
independent cyclic left shift by `k` within each half `[0, h)` and `[h, 2h)`
with `h = n/2`. -/
def rotIndex (n k i : Nat) : Nat :=
  if i < n / 2 then (i + k) % (n / 2) else n / 2 + (i - n / 2 + k) % (n / 2)

/-- Ideal-BGV `Evaluator.RotateColumns`: slot `i` of the result holds slot
`rotIndex n k i` of the input. -/
def ctRot (p : Parameters) (k : Nat) (c : Ct) : Ct :=
  (List.range p.maxSlots).map fun i => c.getD (rotIndex p.maxSlots k i) 0

/-- Modelled from the spec: `RotateColumns` (spec section 4.12) is not present
in `src/labeling/labeling.go`; only its caller `src/examples/rotate/main.go`
is in the sources.  Per the spec, the clear label vector is permuted by the
column rotation (`A'[i] = A[sigma_k(i)]`), the single beta is rotated under
BGV using the Galois key for step `k` from `evk` (a BGV error propagates when
that key is missing, spec section 4.16(b)), and the shape and bundle stay
`[[beta]]`.  The evaluation key set is modelled by the list of rotation steps
it holds Galois keys for. -/
def RotateColumns (p : Parameters) (lc : PlaintextLabeledciphertext) (k : Nat)
    (galEls : List Nat) : Outcome PlaintextLabeledciphertext :=
  if k ∈ galEls then
    match lc.elementB with
    | (beta :: _) :: _ =>
      Outcome.ok
        { elementsA := (List.range lc.elementsA.length).map fun i =>
            lc.elementsA.getD (rotIndex p.maxSlots k i) 0
          elementB := [[ctRot p k beta]] }
    | _ => Outcome.err
  else Outcome.err

section Helpers

lemma getD_range_map (n : Nat) (f : Nat → Nat) (i : Nat) (h : i < n) :
    ((List.range n).map f).getD i 0 = f i := by
  rw [List.getD_eq_getElem (l := (List.range n).map f) (d := 0)
      (by simpa using h)]
  simp

lemma getD_lt {c : List Nat} {t : Nat} (ht : 0 < t)
    (h : ∀ x ∈ c, x < t) (i : Nat) : c.getD i 0 < t := by
  rcases Nat.lt_or_ge i c.length with h' | h'
  · rw [List.getD_eq_getElem c 0 h']
    exact h _ (List.getElem_mem h')
  · rw [List.getD_eq_default c 0 h']
    exact ht

lemma u64add_eq {a b : Nat} (h : a + b < U64) : u64add a b = a + b :=
  Nat.mod_eq_of_lt h

lemma u64mul_eq {a b : Nat} (ha : a < 2 ^ 32) (hb : b < 2 ^ 32) :
    u64mul a b = a * b := by
  refine Nat.mod_eq_of_lt ?_
  calc a * b ≤ (2 ^ 32 - 1) * (2 ^ 32 - 1) :=
        Nat.mul_le_mul (by omega) (by omega)
    _ < U64 := by norm_num [U64]

/-- The Go `uint64` expression `(v - b + t) % t` with `b < t` computes
`(v + t - b) % t`: when `b > v` the unsigned subtraction wraps to
`v - b + 2^64` and the subsequent `+ t` wraps back. -/
lemma sub_add_mod_eq {t v b : Nat} (hb : b < t) (ht2 : t ≤ 2 ^ 31)
    (hv : v ≤ 2 ^ 62) :
    u64add (u64sub v b) t % t = (v + t - b) % t := by
  have h : ((v + U64 - b) % U64 + t) % U64 = v + t - b := by
    simp only [U64]
    omega
  simp only [u64add, u64sub, h]

lemma encryptLabel_eq {t v b : Nat} (hb : b < t) (ht2 : t ≤ 2 ^ 31)
    (hv : v ≤ 2 ^ 62) : encryptLabel t v b = (v + t - b) % t :=
  sub_add_mod_eq hb ht2 hv

lemma multLabel_eq {t a1 a2 r : Nat} (hr : r < t) (ht2 : t ≤ 2 ^ 31)
    (h1 : a1 < t) (h2 : a2 < t) :
    multLabel t a1 a2 r = (a1 * a2 + t - r) % t := by
  have hm : u64mul a1 a2 = a1 * a2 := u64mul_eq (by omega) (by omega)
  have hle : a1 * a2 ≤ 2 ^ 62 := by
    calc a1 * a2 ≤ (2 ^ 31) * (2 ^ 31) := Nat.mul_le_mul (by omega) (by omega)
      _ ≤ 2 ^ 62 := by norm_num
  rw [multLabel, hm, sub_add_mod_eq hr ht2 hle]

lemma mod_eq_of_cast {t a b : Nat} (h : (a : ZMod t) = (b : ZMod t)) :
    a % t = b % t :=
  (ZMod.natCast_eq_natCast_iff' a b t).mp h

lemma eq_of_cast_lt {t a b : Nat} (hb : b < t)
    (h : (a : ZMod t) = (b : ZMod t)) : a % t = b := by
  rw [mod_eq_of_cast h, Nat.mod_eq_of_lt hb]

/-- Cast of a stored label `(v + t - b) % t` into `ZMod t`. -/
lemma label_cast {t b : Nat} (v : Nat) (hb : b ≤ t) :
    (((v + t - b) % t : Nat) : ZMod t) = (v : ZMod t) - (b : ZMod t) := by
  have h : v + t - b = v + (t - b) := by omega
  rw [h, ZMod.natCast_mod, Nat.cast_add, Nat.cast_sub hb, ZMod.natCast_self]
  ring

lemma encodeVec_getD (p : Parameters) (v : List Nat) {i : Nat}
    (h : i < p.maxSlots) :
    (encodeVec p v).getD i 0 = v.getD i 0 % p.plaintextModulus :=
  getD_range_map _ _ _ h

lemma ctAdd_getD (p : Parameters) (c1 c2 : Ct) {i : Nat} (h : i < p.maxSlots) :
    (ctAdd p c1 c2).getD i 0 =
      (c1.getD i 0 + c2.getD i 0) % p.plaintextModulus :=
  getD_range_map _ _ _ h

lemma ctMulRelin_getD (p : Parameters) (c1 c2 : Ct) {i : Nat}
    (h : i < p.maxSlots) :
    (ctMulRelin p c1 c2).getD i 0 =
      (c1.getD i 0 * c2.getD i 0) % p.plaintextModulus :=
  getD_range_map _ _ _ h

lemma ctMulPt_getD (p : Parameters) (c : Ct) (v : List Nat) {i : Nat}
    (h : i < p.maxSlots) :
    (ctMulPt p c v).getD i 0 =
      (c.getD i 0 * (v.getD i 0 % p.plaintextModulus)) % p.plaintextModulus :=
  getD_range_map _ _ _ h

lemma ctAddPt_getD (p : Parameters) (c : Ct) (v : List Nat) {i : Nat}
    (h : i < p.maxSlots) :
    (ctAddPt p c v).getD i 0 =
      (c.getD i 0 + v.getD i 0 % p.plaintextModulus) % p.plaintextModulus :=
  getD_range_map _ _ _ h

lemma ctRot_getD (p : Parameters) (k : Nat) (c : Ct) {i : Nat}
    (h : i < p.maxSlots) :
    (ctRot p k c).getD i 0 = c.getD (rotIndex p.maxSlots k i) 0 :=
  getD_range_map _ _ _ h

lemma termProd_aux (p : Parameters) {i : Nat} (h : i < p.maxSlots) :
    ∀ (term : List Ct) (acc : List Nat),
      (term.foldl
        (fun multBetas beta => (List.range p.maxSlots).map fun k =>
          u64mul (multBetas.getD k 0) (beta.getD k 0) % p.plaintextModulus)
        acc).getD i 0 =
      term.foldl
        (fun mb beta => u64mul mb (beta.getD i 0) % p.plaintextModulus)
        (acc.getD i 0) := by
  intro term
  induction term with
  | nil => intro acc; rfl
  | cons beta rest ih =>
    intro acc
    simp only [List.foldl_cons]
    rw [ih, getD_range_map _ _ _ h]

lemma termProdVec_getD (p : Parameters) (term : List Ct) {i : Nat}
    (h : i < p.maxSlots) :
    (termProdVec p term).getD i 0 = termProd p i term := by
  rw [termProdVec, termProd_aux p h term, getD_range_map _ _ _ h, termProd]

lemma sumBetas_aux (p : Parameters) {i : Nat} (h : i < p.maxSlots) :
    ∀ (B : List (List Ct)) (acc : List Nat),
      (B.foldl
        (fun sb term => (List.range p.maxSlots).map fun k =>
          u64add (sb.getD k 0) ((termProdVec p term).getD k 0)
            % p.plaintextModulus)
        acc).getD i 0 =
      B.foldl
        (fun s term => u64add s (termProd p i term) % p.plaintextModulus)
        (acc.getD i 0) := by
  intro B
  induction B with
  | nil => intro acc; rfl
  | cons term rest ih =>
    intro acc
    simp only [List.foldl_cons]
    rw [ih, getD_range_map _ _ _ h, termProdVec_getD p term h]

lemma sumBetasVec_getD (p : Parameters) (B : List (List Ct)) {i : Nat}
    (h : i < p.maxSlots) :
    (sumBetasVec p B).getD i 0 = sumBetas p i B := by
  rw [sumBetasVec, sumBetas_aux p h B, getD_range_map _ _ _ h, sumBetas]

lemma termProd_le (p : Parameters) (i : Nat) (term : List Ct)
    (ht : 0 < p.plaintextModulus) (ht2 : p.plaintextModulus ≤ 2 ^ 31) :
    termProd p i term ≤ 2 ^ 31 := by
  rw [termProd]
  have : ∀ (L : List Ct) (acc : Nat), acc ≤ 2 ^ 31 →
      L.foldl (fun mb beta => u64mul mb (beta.getD i 0) % p.plaintextModulus)
        acc ≤ 2 ^ 31 := by
    intro L
    induction L with
    | nil => intro acc h; exact h
    | cons beta rest ih =>
      intro acc h
      simp only [List.foldl_cons]
      exact ih _ (le_trans (Nat.le_of_lt (Nat.mod_lt _ ht)) ht2)
  exact this term 1 (by norm_num)

lemma sumBetas_lt (p : Parameters) (i : Nat) (B : List (List Ct))
    (ht : 0 < p.plaintextModulus) : sumBetas p i B < p.plaintextModulus := by
  rw [sumBetas]
  have : ∀ (L : List (List Ct)) (acc : Nat), acc < p.plaintextModulus →
      L.foldl (fun s term => u64add s (termProd p i term) % p.plaintextModulus)
        acc < p.plaintextModulus := by
    intro L
    induction L with
    | nil => intro acc h; exact h
    | cons term rest ih =>
      intro acc h
      simp only [List.foldl_cons]
      exact ih _ (Nat.mod_lt _ ht)
  exact this B 0 ht

/-- Restarting the outer `DecryptOverflow` fold from an accumulator `s < t`
adds `s` mod t. -/
lemma sumBetas_shift (p : Parameters) (i : Nat) (B : List (List Ct))
    (ht : 0 < p.plaintextModulus) (ht2 : p.plaintextModulus ≤ 2 ^ 31) :
    ∀ s, s < p.plaintextModulus →
      B.foldl (fun s term => u64add s (termProd p i term) % p.plaintextModulus)
          s = (s + sumBetas p i B) % p.plaintextModulus := by
  induction B with
  | nil =>
    intro s hs
    simp only [List.foldl_nil, sumBetas, Nat.add_zero]
    exact (Nat.mod_eq_of_lt hs).symm
  | cons term rest ih =>
    intro s hs
    have hP : termProd p i term ≤ 2 ^ 31 := termProd_le p i term ht ht2
    have hadd : ∀ a, a < p.plaintextModulus →
        u64add a (termProd p i term) = a + termProd p i term := by
      intro a ha
      exact u64add_eq (by simp only [U64]; omega)
    have hcons : sumBetas p i (term :: rest) =
        (termProd p i term % p.plaintextModulus + sumBetas p i rest) %
          p.plaintextModulus := by
      rw [sumBetas, List.foldl_cons]
      have h0 : u64add 0 (termProd p i term) % p.plaintextModulus =
          termProd p i term % p.plaintextModulus := by
        rw [hadd 0 ht, Nat.zero_add]
      rw [h0, ih _ (Nat.mod_lt _ ht)]
    simp only [List.foldl_cons]
    rw [hadd s hs, ih _ (Nat.mod_lt _ ht), hcons]
    refine mod_eq_of_cast ?_
    push_cast [ZMod.natCast_mod]
    ring

/-- Bundle concatenation at the slot level: the per-term sum over `B1 ++ B2`
is the mod-t sum of the per-term sums. -/
lemma sumBetas_append (p : Parameters) (i : Nat) (B1 B2 : List (List Ct))
    (ht : 0 < p.plaintextModulus) (ht2 : p.plaintextModulus ≤ 2 ^ 31) :
    sumBetas p i (B1 ++ B2) =
      (sumBetas p i B1 + sumBetas p i B2) % p.plaintextModulus := by
  rw [sumBetas, List.foldl_append]
  exact sumBetas_shift p i B2 ht ht2 _ (sumBetas_lt p i B1 ht)

/-- Slot characterization of `DecryptOverflow` for alpha entries below t. -/
lemma decryptOverflow_getD (p : Parameters) (lc : CiphertextLabeledciphertext)
    {i : Nat} (h : i < p.maxSlots) (ht : 0 < p.plaintextModulus)
    (ht2 : p.plaintextModulus ≤ 2 ^ 31)
    (hα : lc.elementsA.getD i 0 < p.plaintextModulus) :
    (DecryptOverflow p lc).getD i 0 =
      (lc.elementsA.getD i 0 + sumBetas p i lc.elementB + p.plaintextModulus) %
        p.plaintextModulus := by
  rw [DecryptOverflow, getD_range_map _ _ _ h, sumBetasVec_getD p _ h]
  have hs : sumBetas p i lc.elementB < p.plaintextModulus :=
    sumBetas_lt p i lc.elementB ht
  have h1 : u64add (lc.elementsA.getD i 0) (sumBetas p i lc.elementB) =
      lc.elementsA.getD i 0 + sumBetas p i lc.elementB :=
    u64add_eq (by simp only [U64]; omega)
  rw [h1, u64add_eq (by simp only [U64]; omega)]

end Helpers

/-- Well-formedness of an ideal ciphertext: every slot entry reduced mod t. -/
abbrev WFct (p : Parameters) (c : Ct) : Prop :=
  ∀ x ∈ c, x < p.plaintextModulus

/-- Well-formedness of an encrypted-shape labeled ciphertext: alpha and every
beta in every bundle term have entries reduced mod t. -/
abbrev WFOver (p : Parameters) (lc : CiphertextLabeledciphertext) : Prop :=
  (∀ x ∈ lc.elementsA, x < p.plaintextModulus) ∧
    ∀ term ∈ lc.elementB, ∀ beta ∈ term, WFct p beta

section Structural

lemma dec_slot {t : Nat} (a b : Nat) (ha : a < t) (hb : b < t)
    (ht2 : t ≤ 2 ^ 31) : u64add (u64add a b) t % t = (a + b + t) % t := by
  have h1 : u64add a b = a + b := u64add_eq (by simp only [U64]; omega)
  rw [h1, u64add_eq (by simp only [U64]; omega)]

lemma encrypt_ok (p : Parameters) (v : List Nat) (masks : Nat → Nat)
    (h : p.maxSlots ≤ v.length) :
    Encrypt p v masks = Outcome.ok
      ⟨(List.range p.maxSlots).map fun i =>
          encryptLabel p.plaintextModulus (v.getD i 0) (masks i),
        [[encodeVec p ((List.range p.maxSlots).map masks)]]⟩ := by
  rw [Encrypt, if_pos h]

lemma decrypt_ok (p : Parameters) (a : List Nat) (b1 : Ct) (B1 : List Ct)
    (T1 : List (List Ct)) (h : a.length ≤ p.maxSlots) :
    Decrypt p ⟨a, (b1 :: B1) :: T1⟩ =
      Outcome.ok ((List.range a.length).map fun i =>
        u64add (u64add (a.getD i 0) (b1.getD i 0)) p.plaintextModulus %
          p.plaintextModulus) := by
  simp only [Decrypt]
  rw [if_pos h]

lemma mult_ok (p : Parameters) (a1 a2 : List Nat) (b1 b2 : Ct)
    (B1 B2 : List Ct) (T1 T2 : List (List Ct)) (rands : Nat → Nat)
    (h1 : a1.length ≤ a2.length) (h2 : a1.length ≤ p.maxSlots)
    (h3 : a2.length ≤ p.maxSlots) :
    Mult p ⟨a1, (b1 :: B1) :: T1⟩ ⟨a2, (b2 :: B2) :: T2⟩ rands = Outcome.ok
      ⟨(List.range a1.length).map fun i =>
          multLabel p.plaintextModulus (a1.getD i 0) (a2.getD i 0) (rands i),
        [[ctAdd p
          (ctAdd p (ctAdd p (ctMulRelin p b1 b2) (ctMulPt p b1 a2))
            (ctMulPt p b2 a1))
          (encodeVec p ((List.range p.maxSlots).map rands))]]⟩ := by
  rw [Mult, if_pos ⟨h1, h2⟩]
  simp only []
  rw [if_pos h3]

lemma multOverflow_ok (p : Parameters) (a1 a2 : List Nat) (b1 b2 : Ct)
    (B1 B2 : List Ct) (T1 T2 : List (List Ct))
    (h1 : a1.length ≤ a2.length) (h2 : a1.length ≤ p.maxSlots)
    (h3 : a2.length ≤ p.maxSlots) :
    MultOverflow p ⟨a1, (b1 :: B1) :: T1⟩ ⟨a2, (b2 :: B2) :: T2⟩ = Outcome.ok
      ⟨ctAdd p
          (ctAdd p
            (encodeVec p ((List.range a1.length).map fun i =>
              u64mul (a1.getD i 0) (a2.getD i 0) % p.plaintextModulus))
            (ctMulPt p b2 a1))
          (ctMulPt p b1 a2),
        [[b1, b2]]⟩ := by
  rw [MultOverflow, if_pos h1, if_pos h2]
  simp only []
  rw [if_pos h3]

lemma sumOverflow_ok (p : Parameters) (lc1 : CiphertextLabeledciphertext)
    (lc2 : PlaintextLabeledciphertext) (h : lc2.elementsA.length ≤ p.maxSlots) :
    SumOverflow p lc1 lc2 = Outcome.ok
      ⟨ctAddPt p lc1.elementsA lc2.elementsA,
        lc1.elementB ++ lc2.elementB⟩ := by
  rw [SumOverflow, if_pos h]

lemma ctAdd_getD_lt (p : Parameters) (c1 c2 : Ct) {i : Nat}
    (h : i < p.maxSlots) (ht : 0 < p.plaintextModulus) :
    (ctAdd p c1 c2).getD i 0 < p.plaintextModulus := by
  rw [ctAdd_getD p _ _ h]
  exact Nat.mod_lt _ ht

/-- Cast, into `ZMod t`, of one slot of the beta produced by `Mult`:
`MulRelin(b1,b2) + Mul(b1,a2) + Mul(b2,a1) + Enc(r)`. -/
lemma multBeta_cast (p : Parameters) (b1ct b2ct : Ct) (a1 a2 : List Nat)
    (rands : Nat → Nat) {i : Nat} (h : i < p.maxSlots) :
    ((ctAdd p
        (ctAdd p (ctAdd p (ctMulRelin p b1ct b2ct) (ctMulPt p b1ct a2))
          (ctMulPt p b2ct a1))
        (encodeVec p ((List.range p.maxSlots).map rands))).getD i 0 :
          ZMod p.plaintextModulus) =
      (b1ct.getD i 0 : ZMod p.plaintextModulus) * (b2ct.getD i 0 : ZMod p.plaintextModulus) +
        (b1ct.getD i 0 : ZMod p.plaintextModulus) * (a2.getD i 0 : ZMod p.plaintextModulus) +
        (b2ct.getD i 0 : ZMod p.plaintextModulus) * (a1.getD i 0 : ZMod p.plaintextModulus) +
        (rands i : ZMod p.plaintextModulus) := by
  rw [ctAdd_getD p _ _ h, ctAdd_getD p _ _ h, ctAdd_getD p _ _ h,
    ctMulRelin_getD p _ _ h, ctMulPt_getD p _ _ h, ctMulPt_getD p _ _ h,
    encodeVec_getD p _ h, getD_range_map _ _ _ h]
  push_cast [ZMod.natCast_mod]
  ring

/-- Cast, into `ZMod t`, of one slot of the alpha produced by `MultOverflow`:
`Enc(a1*a2) + Mul(b2,a1) + Mul(b1,a2)`. -/
lemma alphaOverflow_cast (p : Parameters) (a1 a2 : List Nat) (b1ct b2ct : Ct)
    {i : Nat} (h : i < p.maxSlots) (hia : i < a1.length)
    (ha1 : a1.getD i 0 < 2 ^ 32) (ha2 : a2.getD i 0 < 2 ^ 32) :
    ((ctAdd p
        (ctAdd p
          (encodeVec p ((List.range a1.length).map fun j =>
            u64mul (a1.getD j 0) (a2.getD j 0) % p.plaintextModulus))
          (ctMulPt p b2ct a1))
        (ctMulPt p b1ct a2)).getD i 0 : ZMod p.plaintextModulus) =
      (a1.getD i 0 : ZMod p.plaintextModulus) * (a2.getD i 0 : ZMod p.plaintextModulus) +
        (b2ct.getD i 0 : ZMod p.plaintextModulus) * (a1.getD i 0 : ZMod p.plaintextModulus) +
        (b1ct.getD i 0 : ZMod p.plaintextModulus) * (a2.getD i 0 : ZMod p.plaintextModulus) := by
  rw [ctAdd_getD p _ _ h, ctAdd_getD p _ _ h, encodeVec_getD p _ h,
    getD_range_map _ _ _ hia, ctMulPt_getD p _ _ h, ctMulPt_getD p _ _ h,
    u64mul_eq ha1 ha2]
  push_cast [ZMod.natCast_mod]
  ring

/-- Cast of a two-factor term product of `DecryptOverflow`. -/
lemma termProd_pair_cast (p : Parameters) (x y : Ct) {i : Nat}
    (hx : x.getD i 0 < p.plaintextModulus)
    (hy : y.getD i 0 < p.plaintextModulus)
    (ht2 : p.plaintextModulus ≤ 2 ^ 31) :
    ((termProd p i [x, y] : Nat) : ZMod p.plaintextModulus) =
      (x.getD i 0 : ZMod p.plaintextModulus) *
        (y.getD i 0 : ZMod p.plaintextModulus) := by
  simp only [termProd, List.foldl_cons, List.foldl_nil]
  have e1 : u64mul 1 (x.getD i 0) = x.getD i 0 := by
    rw [u64mul_eq (by norm_num) (by omega), Nat.one_mul]
  rw [e1]
  have e2 : u64mul (x.getD i 0 % p.plaintextModulus) (y.getD i 0) =
      x.getD i 0 % p.plaintextModulus * y.getD i 0 := by
    refine u64mul_eq ?_ (by omega)
    have := Nat.mod_le (x.getD i 0) p.plaintextModulus
    omega
  rw [e2]
  push_cast [ZMod.natCast_mod]
  ring

/-- Cast of a single-factor term product of `DecryptOverflow`. -/
lemma termProd_single_cast (p : Parameters) (x : Ct) {i : Nat}
    (hx : x.getD i 0 < p.plaintextModulus)
    (ht2 : p.plaintextModulus ≤ 2 ^ 31) :
    ((termProd p i [x] : Nat) : ZMod p.plaintextModulus) =
      (x.getD i 0 : ZMod p.plaintextModulus) := by
  simp only [termProd, List.foldl_cons, List.foldl_nil]
  have e1 : u64mul 1 (x.getD i 0) = x.getD i 0 := by
    rw [u64mul_eq (by norm_num) (by omega), Nat.one_mul]
  rw [e1]
  push_cast [ZMod.natCast_mod]
  ring

/-- Cast of the per-slot term sum of `DecryptOverflow` on a one-term bundle. -/
lemma sumBetas_one_cast (p : Parameters) (T : List Ct) {i : Nat}
    (ht : 0 < p.plaintextModulus) (ht2 : p.plaintextModulus ≤ 2 ^ 31) :
    ((sumBetas p i [T] : Nat) : ZMod p.plaintextModulus) =
      ((termProd p i T : Nat) : ZMod p.plaintextModulus) := by
  simp only [sumBetas, List.foldl_cons, List.foldl_nil]
  have hP := termProd_le p i T ht ht2
  rw [u64add_eq (by simp only [U64]; omega), Nat.zero_add]
  push_cast [ZMod.natCast_mod]
  ring

/-- Cast of the per-slot term sum of `DecryptOverflow` on a two-term bundle. -/
lemma sumBetas_two_cast (p : Parameters) (T1 T2 : List Ct) {i : Nat}
    (ht : 0 < p.plaintextModulus) (ht2 : p.plaintextModulus ≤ 2 ^ 31) :
    ((sumBetas p i [T1, T2] : Nat) : ZMod p.plaintextModulus) =
      ((termProd p i T1 : Nat) : ZMod p.plaintextModulus) +
        ((termProd p i T2 : Nat) : ZMod p.plaintextModulus) := by
  simp only [sumBetas, List.foldl_cons, List.foldl_nil]
  have hP1 := termProd_le p i T1 ht ht2
  have hP2 := termProd_le p i T2 ht ht2
  have e1 : u64add 0 (termProd p i T1) = termProd p i T1 := by
    rw [u64add_eq (by simp only [U64]; omega), Nat.zero_add]
  rw [e1]
  have e2 : u64add (termProd p i T1 % p.plaintextModulus) (termProd p i T2) =
      termProd p i T1 % p.plaintextModulus + termProd p i T2 := by
    refine u64add_eq ?_
    have := Nat.mod_le (termProd p i T1) p.plaintextModulus
    simp only [U64]
    omega
  rw [e2]
  push_cast [ZMod.natCast_mod]
  ring

lemma rotate_ok (p : Parameters) (a : List Nat) (b1 : Ct) (B1 : List Ct)
    (T1 : List (List Ct)) (k : Nat) (galEls : List Nat) (hk : k ∈ galEls) :
    RotateColumns p ⟨a, (b1 :: B1) :: T1⟩ k galEls = Outcome.ok
      ⟨(List.range a.length).map fun i => a.getD (rotIndex p.maxSlots k i) 0,
        [[ctRot p k b1]]⟩ := by
  rw [RotateColumns, if_pos hk]

lemma rotIndex_lt {n k i : Nat} (heven : n % 2 = 0) (hi : i < n) :
    rotIndex n k i < n := by
  rw [rotIndex]
  rcases Nat.lt_or_ge i (n / 2) with h | h
  · rw [if_pos h]
    have h2 : 0 < n / 2 := by omega
    have := Nat.mod_lt (i + k) h2
    omega
  · rw [if_neg (by omega)]
    have h2 : 0 < n / 2 := by omega
    have := Nat.mod_lt (i - n / 2 + k) h2
    omega

lemma roundtrip_slot {t : Nat} (v b : Nat) (ht : 0 < t) (ht2 : t ≤ 2 ^ 31)
    (hv : v < t) (hb : b < t) :
    u64add (u64add (encryptLabel t v b) b) t % t = v := by
  have ha : encryptLabel t v b < t := Nat.mod_lt _ ht
  rw [dec_slot _ _ ha hb ht2]
  refine eq_of_cast_lt hv ?_
  rw [encryptLabel_eq hb ht2 (by omega)]
  push_cast
  rw [label_cast v (le_of_lt hb), ZMod.natCast_self]
  ring

end Structural

/-- Claim C1: for all plaintext vectors `v1, v2` in `Z_t^n` and every keypair,
decrypting `Mult(Encrypt(pk,v1), Encrypt(pk,v2))` yields the slot-wise product
mod t; internally the output label is `(a1[i]*a2[i] - r[i]) mod t` for the
fresh mask stream `r`, and the output beta decrypts slot-wise to
`b1*b2 + b2*a1 + b1*a2 + r` (the BGV value of
`MulRelin(beta1,beta2) + beta2*a1 + beta1*a2 + Enc(r)`). -/
theorem C1_mult_homomorphism (p : Parameters) (v1 v2 : List Nat)
    (m1 m2 r : Nat → Nat) (ht : 0 < p.plaintextModulus)
    (ht2 : p.plaintextModulus ≤ 2 ^ 31)
    (h1 : v1.length = p.maxSlots) (h2 : v2.length = p.maxSlots)
    (hv1 : ∀ x ∈ v1, x < p.plaintextModulus)
    (hv2 : ∀ x ∈ v2, x < p.plaintextModulus)
    (hm1 : ∀ i, m1 i < p.plaintextModulus)
    (hm2 : ∀ i, m2 i < p.plaintextModulus)
    (hr : ∀ i, r i < p.plaintextModulus) :
    ∃ c1 c2 cM, Encrypt p v1 m1 = Outcome.ok c1 ∧
      Encrypt p v2 m2 = Outcome.ok c2 ∧ Mult p c1 c2 r = Outcome.ok cM ∧
      Decrypt p cM = Outcome.ok ((List.range p.maxSlots).map fun i =>
        v1.getD i 0 * v2.getD i 0 % p.plaintextModulus) ∧
      (∀ i, i < p.maxSlots → cM.elementsA.getD i 0 =
        (c1.elementsA.getD i 0 * c2.elementsA.getD i 0 + p.plaintextModulus
          - r i) % p.plaintextModulus) ∧
      (∀ i, i < p.maxSlots → ((cM.elementB.getD 0 []).getD 0 []).getD i 0 =
        (m1 i * m2 i + m1 i * c2.elementsA.getD i 0 +
          m2 i * c1.elementsA.getD i 0 + r i) % p.plaintextModulus) := by
  refine ⟨_, _, _, encrypt_ok p v1 m1 (le_of_eq h1.symm),
    encrypt_ok p v2 m2 (le_of_eq h2.symm),
    mult_ok p _ _ _ _ [] [] [] [] r (by simp) (by simp) (by simp), ?_, ?_, ?_⟩
  · -- decryption of the product
    rw [decrypt_ok p _ _ [] [] (by simp)]
    refine congrArg Outcome.ok (List.ext_getElem (by simp) ?_)
    intro i hi1 hi2
    simp only [List.length_map, List.length_range] at hi1 hi2
    simp only [List.getElem_map, List.getElem_range]
    have hv1i : v1.getD i 0 < p.plaintextModulus := getD_lt ht hv1 i
    have hv2i : v2.getD i 0 < p.plaintextModulus := getD_lt ht hv2 i
    rw [getD_range_map _ _ _ (by simpa using hi1), getD_range_map _ _ _ hi1,
      getD_range_map _ _ _ hi1, encryptLabel_eq (hm1 i) ht2 (by omega),
      encryptLabel_eq (hm2 i) ht2 (by omega),
      multLabel_eq (hr i) ht2 (Nat.mod_lt _ ht) (Nat.mod_lt _ ht)]
    have hY := ctAdd_getD_lt p
      (ctAdd p
        (ctAdd p
          (ctMulRelin p (encodeVec p ((List.range p.maxSlots).map m1))
            (encodeVec p ((List.range p.maxSlots).map m2)))
          (ctMulPt p (encodeVec p ((List.range p.maxSlots).map m1))
            ((List.range p.maxSlots).map fun j =>
              encryptLabel p.plaintextModulus (v2.getD j 0) (m2 j))))
        (ctMulPt p (encodeVec p ((List.range p.maxSlots).map m2))
          ((List.range p.maxSlots).map fun j =>
            encryptLabel p.plaintextModulus (v1.getD j 0) (m1 j))))
      (encodeVec p ((List.range p.maxSlots).map r)) hi1 ht
    rw [dec_slot _ _ (Nat.mod_lt _ ht) hY ht2]
    refine mod_eq_of_cast ?_
    have cY := multBeta_cast p (encodeVec p ((List.range p.maxSlots).map m1))
      (encodeVec p ((List.range p.maxSlots).map m2))
      ((List.range p.maxSlots).map fun j =>
        encryptLabel p.plaintextModulus (v1.getD j 0) (m1 j))
      ((List.range p.maxSlots).map fun j =>
        encryptLabel p.plaintextModulus (v2.getD j 0) (m2 j))
      r hi1
    have eB1 : (encodeVec p ((List.range p.maxSlots).map m1)).getD i 0 =
        m1 i := by
      rw [encodeVec_getD p _ hi1, getD_range_map _ _ _ hi1,
        Nat.mod_eq_of_lt (hm1 i)]
    have eB2 : (encodeVec p ((List.range p.maxSlots).map m2)).getD i 0 =
        m2 i := by
      rw [encodeVec_getD p _ hi1, getD_range_map _ _ _ hi1,
        Nat.mod_eq_of_lt (hm2 i)]
    rw [eB1, eB2, getD_range_map _ _ _ hi1, getD_range_map _ _ _ hi1,
      encryptLabel_eq (hm1 i) ht2 (by omega),
      encryptLabel_eq (hm2 i) ht2 (by omega),
      label_cast (v1.getD i 0) (le_of_lt (hm1 i)),
      label_cast (v2.getD i 0) (le_of_lt (hm2 i))] at cY
    rw [Nat.cast_add, Nat.cast_add,
      label_cast _ (le_of_lt (hr i)), Nat.cast_mul,
      label_cast (v1.getD i 0) (le_of_lt (hm1 i)),
      label_cast (v2.getD i 0) (le_of_lt (hm2 i)), cY, ZMod.natCast_self]
    push_cast
    ring
  · -- label formula
    intro i hi
    dsimp only
    rw [getD_range_map _ _ _ (by simpa using hi), getD_range_map _ _ _ hi,
      getD_range_map _ _ _ hi]
    exact multLabel_eq (hr i) ht2 (Nat.mod_lt _ ht) (Nat.mod_lt _ ht)
  · -- beta formula
    intro i hi
    dsimp only
    simp only [List.getD_cons_zero]
    have hY := ctAdd_getD_lt p
      (ctAdd p
        (ctAdd p
          (ctMulRelin p (encodeVec p ((List.range p.maxSlots).map m1))
            (encodeVec p ((List.range p.maxSlots).map m2)))
          (ctMulPt p (encodeVec p ((List.range p.maxSlots).map m1))
            ((List.range p.maxSlots).map fun j =>
              encryptLabel p.plaintextModulus (v2.getD j 0) (m2 j))))
        (ctMulPt p (encodeVec p ((List.range p.maxSlots).map m2))
          ((List.range p.maxSlots).map fun j =>
            encryptLabel p.plaintextModulus (v1.getD j 0) (m1 j))))
      (encodeVec p ((List.range p.maxSlots).map r)) hi ht
    refine (eq_of_cast_lt hY ?_).symm
    have cY := multBeta_cast p (encodeVec p ((List.range p.maxSlots).map m1))
      (encodeVec p ((List.range p.maxSlots).map m2))
      ((List.range p.maxSlots).map fun j =>
        encryptLabel p.plaintextModulus (v1.getD j 0) (m1 j))
      ((List.range p.maxSlots).map fun j =>
        encryptLabel p.plaintextModulus (v2.getD j 0) (m2 j))
      r hi
    have eB1 : (encodeVec p ((List.range p.maxSlots).map m1)).getD i 0 =
        m1 i := by
      rw [encodeVec_getD p _ hi, getD_range_map _ _ _ hi,
        Nat.mod_eq_of_lt (hm1 i)]
    have eB2 : (encodeVec p ((List.range p.maxSlots).map m2)).getD i 0 =
        m2 i := by
      rw [encodeVec_getD p _ hi, getD_range_map _ _ _ hi,
        Nat.mod_eq_of_lt (hm2 i)]
    rw [eB1, eB2] at cY
    rw [cY]
    push_cast
    ring

/-- Witness for C1 at concrete parameters. -/
theorem C1_witness :
    ∃ c1 c2 cM, Encrypt ⟨2, 97⟩ [3, 5] (fun _ => 7) = Outcome.ok c1 ∧
      Encrypt ⟨2, 97⟩ [4, 6] (fun _ => 9) = Outcome.ok c2 ∧
      Mult ⟨2, 97⟩ c1 c2 (fun _ => 2) = Outcome.ok cM ∧
      Decrypt ⟨2, 97⟩ cM = Outcome.ok ((List.range 2).map fun i =>
        [3, 5].getD i 0 * [4, 6].getD i 0 % 97) ∧
      (∀ i, i < 2 → cM.elementsA.getD i 0 =
        (c1.elementsA.getD i 0 * c2.elementsA.getD i 0 + 97 - 2) % 97) ∧
      (∀ i, i < 2 → ((cM.elementB.getD 0 []).getD 0 []).getD i 0 =
        (7 * 9 + 7 * c2.elementsA.getD i 0 +
          9 * c1.elementsA.getD i 0 + 2) % 97) :=
  C1_mult_homomorphism ⟨2, 97⟩ [3, 5] [4, 6] (fun _ => 7) (fun _ => 9)
    (fun _ => 2) (by decide) (by decide) (by decide) (by decide) (by decide)
    (by decide) (fun _ => show (7 : Nat) < 97 by decide)
    (fun _ => show (9 : Nat) < 97 by decide)
    (fun _ => show (2 : Nat) < 97 by decide)

/-- Claim C2: for clear-shape operands `Encrypt(pk,v1)` and `Encrypt(pk,v2)`
with betas `beta1, beta2`, `MultOverflow` returns an encrypted-shape
ciphertext whose alpha satisfies
`Dec(alpha) + Dec(beta1)*Dec(beta2) = v1*v2 (mod t)` slot-wise, whose beta
bundle is exactly `[[beta1, beta2]]`, and whose `DecryptOverflow` equals the
slot-wise product mod t. -/
theorem C2_multOverflow_semantics (p : Parameters) (v1 v2 : List Nat)
    (m1 m2 : Nat → Nat) (ht : 0 < p.plaintextModulus)
    (ht2 : p.plaintextModulus ≤ 2 ^ 31)
    (h1 : v1.length = p.maxSlots) (h2 : v2.length = p.maxSlots)
    (hv1 : ∀ x ∈ v1, x < p.plaintextModulus)
    (hv2 : ∀ x ∈ v2, x < p.plaintextModulus)
    (hm1 : ∀ i, m1 i < p.plaintextModulus)
    (hm2 : ∀ i, m2 i < p.plaintextModulus) :
    ∃ c1 c2 cO, Encrypt p v1 m1 = Outcome.ok c1 ∧
      Encrypt p v2 m2 = Outcome.ok c2 ∧
      MultOverflow p c1 c2 = Outcome.ok cO ∧
      cO.elementB = [[(c1.elementB.getD 0 []).getD 0 [],
        (c2.elementB.getD 0 []).getD 0 []]] ∧
      (∀ i, i < p.maxSlots →
        (cO.elementsA.getD i 0 +
          ((c1.elementB.getD 0 []).getD 0 []).getD i 0 *
            ((c2.elementB.getD 0 []).getD 0 []).getD i 0) % p.plaintextModulus =
          v1.getD i 0 * v2.getD i 0 % p.plaintextModulus) ∧
      DecryptOverflow p cO = ((List.range p.maxSlots).map fun i =>
        v1.getD i 0 * v2.getD i 0 % p.plaintextModulus) := by
  have hlab1 : ∀ x ∈ (List.range p.maxSlots).map fun j =>
      encryptLabel p.plaintextModulus (v1.getD j 0) (m1 j),
      x < p.plaintextModulus := by
    intro x hx
    obtain ⟨j, -, rfl⟩ := List.mem_map.mp hx
    exact Nat.mod_lt _ ht
  have hlab2 : ∀ x ∈ (List.range p.maxSlots).map fun j =>
      encryptLabel p.plaintextModulus (v2.getD j 0) (m2 j),
      x < p.plaintextModulus := by
    intro x hx
    obtain ⟨j, -, rfl⟩ := List.mem_map.mp hx
    exact Nat.mod_lt _ ht
  refine ⟨_, _, _, encrypt_ok p v1 m1 (le_of_eq h1.symm),
    encrypt_ok p v2 m2 (le_of_eq h2.symm),
    multOverflow_ok p _ _ _ _ [] [] [] [] (by simp) (by simp) (by simp),
    ?_, ?_, ?_⟩
  · dsimp only
    simp only [List.getD_cons_zero]
  · -- alpha semantics
    intro i hi
    dsimp only
    simp only [List.getD_cons_zero]
    refine mod_eq_of_cast ?_
    have cα := alphaOverflow_cast p
      ((List.range p.maxSlots).map fun j =>
        encryptLabel p.plaintextModulus (v1.getD j 0) (m1 j))
      ((List.range p.maxSlots).map fun j =>
        encryptLabel p.plaintextModulus (v2.getD j 0) (m2 j))
      (encodeVec p ((List.range p.maxSlots).map m1))
      (encodeVec p ((List.range p.maxSlots).map m2))
      hi (by simpa using hi)
      (lt_of_lt_of_le (getD_lt ht hlab1 i) (by omega))
      (lt_of_lt_of_le (getD_lt ht hlab2 i) (by omega))
    have eB1 : (encodeVec p ((List.range p.maxSlots).map m1)).getD i 0 =
        m1 i := by
      rw [encodeVec_getD p _ hi, getD_range_map _ _ _ hi,
        Nat.mod_eq_of_lt (hm1 i)]
    have eB2 : (encodeVec p ((List.range p.maxSlots).map m2)).getD i 0 =
        m2 i := by
      rw [encodeVec_getD p _ hi, getD_range_map _ _ _ hi,
        Nat.mod_eq_of_lt (hm2 i)]
    rw [getD_range_map _ _ _ hi, getD_range_map _ _ _ hi,
      encryptLabel_eq (hm1 i) ht2 (by have := getD_lt ht hv1 i; omega),
      encryptLabel_eq (hm2 i) ht2 (by have := getD_lt ht hv2 i; omega),
      label_cast (v1.getD i 0) (le_of_lt (hm1 i)),
      label_cast (v2.getD i 0) (le_of_lt (hm2 i)), eB1, eB2] at cα
    rw [Nat.cast_add, Nat.cast_mul, cα, eB1, eB2]
    push_cast
    ring
  · -- DecryptOverflow of the product
    dsimp only
    refine List.ext_getElem (by simp [DecryptOverflow]) ?_
    intro i hi1 hi2
    simp only [DecryptOverflow, List.length_map, List.length_range] at hi1
    rw [← List.getD_eq_getElem _ 0, ← List.getD_eq_getElem _ 0,
      getD_range_map _ _ _ hi1,
      decryptOverflow_getD p _ hi1 ht ht2 (ctAdd_getD_lt p _ _ hi1 ht)]
    refine mod_eq_of_cast ?_
    have eB1 : (encodeVec p ((List.range p.maxSlots).map m1)).getD i 0 =
        m1 i := by
      rw [encodeVec_getD p _ hi1, getD_range_map _ _ _ hi1,
        Nat.mod_eq_of_lt (hm1 i)]
    have eB2 : (encodeVec p ((List.range p.maxSlots).map m2)).getD i 0 =
        m2 i := by
      rw [encodeVec_getD p _ hi1, getD_range_map _ _ _ hi1,
        Nat.mod_eq_of_lt (hm2 i)]
    have cα := alphaOverflow_cast p
      ((List.range p.maxSlots).map fun j =>
        encryptLabel p.plaintextModulus (v1.getD j 0) (m1 j))
      ((List.range p.maxSlots).map fun j =>
        encryptLabel p.plaintextModulus (v2.getD j 0) (m2 j))
      (encodeVec p ((List.range p.maxSlots).map m1))
      (encodeVec p ((List.range p.maxSlots).map m2))
      hi1 (by simpa using hi1)
      (lt_of_lt_of_le (getD_lt ht hlab1 i) (by omega))
      (lt_of_lt_of_le (getD_lt ht hlab2 i) (by omega))
    rw [getD_range_map _ _ _ hi1, getD_range_map _ _ _ hi1,
      encryptLabel_eq (hm1 i) ht2 (by have := getD_lt ht hv1 i; omega),
      encryptLabel_eq (hm2 i) ht2 (by have := getD_lt ht hv2 i; omega),
      label_cast (v1.getD i 0) (le_of_lt (hm1 i)),
      label_cast (v2.getD i 0) (le_of_lt (hm2 i)), eB1, eB2] at cα
    have cS := sumBetas_one_cast p
      [encodeVec p ((List.range p.maxSlots).map m1),
        encodeVec p ((List.range p.maxSlots).map m2)] (i := i) ht ht2
    rw [termProd_pair_cast p _ _ (by rw [eB1]; exact hm1 i)
        (by rw [eB2]; exact hm2 i) ht2, eB1, eB2] at cS
    rw [Nat.cast_add, Nat.cast_add, ZMod.natCast_self, cα, cS]
    push_cast
    ring

/-- Witness for C2 at concrete parameters. -/
theorem C2_witness :
    ∃ c1 c2 cO, Encrypt ⟨2, 97⟩ [3, 5] (fun _ => 7) = Outcome.ok c1 ∧
      Encrypt ⟨2, 97⟩ [4, 6] (fun _ => 9) = Outcome.ok c2 ∧
      MultOverflow ⟨2, 97⟩ c1 c2 = Outcome.ok cO ∧
      cO.elementB = [[(c1.elementB.getD 0 []).getD 0 [],
        (c2.elementB.getD 0 []).getD 0 []]] ∧
      (∀ i, i < 2 →
        (cO.elementsA.getD i 0 +
          ((c1.elementB.getD 0 []).getD 0 []).getD i 0 *
            ((c2.elementB.getD 0 []).getD 0 []).getD i 0) % 97 =
          [3, 5].getD i 0 * [4, 6].getD i 0 % 97) ∧
      DecryptOverflow ⟨2, 97⟩ cO = ((List.range 2).map fun i =>
        [3, 5].getD i 0 * [4, 6].getD i 0 % 97) :=
  C2_multOverflow_semantics ⟨2, 97⟩ [3, 5] [4, 6] (fun _ => 7) (fun _ => 9)
    (by decide) (by decide) (by decide) (by decide) (by decide) (by decide)
    (fun _ => show (7 : Nat) < 97 by decide)
    (fun _ => show (9 : Nat) < 97 by decide)

/-- Claim C5: for any two well-formed encrypted-shape ciphertexts,
`SumOverflowCiphertext` returns a ciphertext whose beta bundle is exactly the
list concatenation of the operands' bundles (term order and cardinality
preserved), whose alpha is the BGV sum of the alphas, and whose
`DecryptOverflow` is the slot-wise sum mod t of the operands'
`DecryptOverflow` values. -/
theorem C5_sumOverflowCiphertext (p : Parameters)
    (lc1 lc2 : CiphertextLabeledciphertext) (ht : 0 < p.plaintextModulus)
    (ht2 : p.plaintextModulus ≤ 2 ^ 31) (w1 : WFOver p lc1)
    (w2 : WFOver p lc2) :
    (SumOverflowCiphertext p lc1 lc2).elementB =
      lc1.elementB ++ lc2.elementB ∧
    (∀ i, i < p.maxSlots →
      (SumOverflowCiphertext p lc1 lc2).elementsA.getD i 0 =
        (lc1.elementsA.getD i 0 + lc2.elementsA.getD i 0) %
          p.plaintextModulus) ∧
    DecryptOverflow p (SumOverflowCiphertext p lc1 lc2) =
      (List.range p.maxSlots).map fun i =>
        ((DecryptOverflow p lc1).getD i 0 + (DecryptOverflow p lc2).getD i 0) %
          p.plaintextModulus := by
  refine ⟨rfl, fun i hi => ctAdd_getD p _ _ hi, ?_⟩
  refine List.ext_getElem (by simp [DecryptOverflow]) ?_
  intro i hi1 hi2
  simp only [DecryptOverflow, List.length_map, List.length_range] at hi1
  rw [← List.getD_eq_getElem _ 0, ← List.getD_eq_getElem _ 0,
    getD_range_map _ _ _ hi1]
  have hα1 : lc1.elementsA.getD i 0 < p.plaintextModulus := getD_lt ht w1.1 i
  have hα2 : lc2.elementsA.getD i 0 < p.plaintextModulus := getD_lt ht w2.1 i
  have hsum : (SumOverflowCiphertext p lc1 lc2).elementsA.getD i 0 <
      p.plaintextModulus := ctAdd_getD_lt p _ _ hi1 ht
  rw [decryptOverflow_getD p _ hi1 ht ht2 hsum,
    decryptOverflow_getD p lc1 hi1 ht ht2 hα1,
    decryptOverflow_getD p lc2 hi1 ht ht2 hα2]
  show (_ + sumBetas p i (lc1.elementB ++ lc2.elementB) + _) % _ = _
  rw [sumBetas_append p i _ _ ht ht2]
  simp only [SumOverflowCiphertext]
  rw [ctAdd_getD p _ _ hi1]
  refine mod_eq_of_cast ?_
  push_cast [ZMod.natCast_mod, ZMod.natCast_self]
  ring

/-- Witness for C5 at concrete well-formed operands. -/
theorem C5_witness :
    (SumOverflowCiphertext ⟨2, 97⟩ ⟨[5, 7], [[[1, 2], [3, 4]]]⟩
        ⟨[9, 11], [[[2, 2]]]⟩).elementB =
      [[[1, 2], [3, 4]]] ++ [[[2, 2]]] ∧
    (∀ i, i < 2 →
      (SumOverflowCiphertext ⟨2, 97⟩ ⟨[5, 7], [[[1, 2], [3, 4]]]⟩
          ⟨[9, 11], [[[2, 2]]]⟩).elementsA.getD i 0 =
        ([5, 7].getD i 0 + [9, 11].getD i 0) % 97) ∧
    DecryptOverflow ⟨2, 97⟩ (SumOverflowCiphertext ⟨2, 97⟩
        ⟨[5, 7], [[[1, 2], [3, 4]]]⟩ ⟨[9, 11], [[[2, 2]]]⟩) =
      (List.range 2).map fun i =>
        ((DecryptOverflow ⟨2, 97⟩ ⟨[5, 7], [[[1, 2], [3, 4]]]⟩).getD i 0 +
          (DecryptOverflow ⟨2, 97⟩ ⟨[9, 11], [[[2, 2]]]⟩).getD i 0) % 97 :=
  C5_sumOverflowCiphertext ⟨2, 97⟩ ⟨[5, 7], [[[1, 2], [3, 4]]]⟩
    ⟨[9, 11], [[[2, 2]]]⟩ (by decide) (by decide) (by decide) (by decide)

/-- Claim C4: the mixed depth-2 chain
`DecryptOverflow(SumOverflow(MultOverflow(Encrypt(v1), Mult(Encrypt(v1),
Encrypt(v2))), Encrypt(v1)))` equals `((v1*v2)*v1 + v1) mod t` per slot:
`SumOverflow` adds the clear label into alpha as a plaintext slot vector and
appends the clear operand's single-beta bundle, and the overflow decryption's
sum of per-term products reconstructs the expression. -/
theorem C4_mixed_depth_chain (p : Parameters) (v1 v2 : List Nat)
    (m1 m2 r : Nat → Nat) (ht : 0 < p.plaintextModulus)
    (ht2 : p.plaintextModulus ≤ 2 ^ 31)
    (h1 : v1.length = p.maxSlots) (h2 : v2.length = p.maxSlots)
    (hv1 : ∀ x ∈ v1, x < p.plaintextModulus)
    (hv2 : ∀ x ∈ v2, x < p.plaintextModulus)
    (hm1 : ∀ i, m1 i < p.plaintextModulus)
    (hm2 : ∀ i, m2 i < p.plaintextModulus)
    (hr : ∀ i, r i < p.plaintextModulus) :
    ∃ c1 c2 cM cO cS, Encrypt p v1 m1 = Outcome.ok c1 ∧
      Encrypt p v2 m2 = Outcome.ok c2 ∧ Mult p c1 c2 r = Outcome.ok cM ∧
      MultOverflow p c1 cM = Outcome.ok cO ∧
      SumOverflow p cO c1 = Outcome.ok cS ∧
      DecryptOverflow p cS = ((List.range p.maxSlots).map fun i =>
        (v1.getD i 0 * v2.getD i 0 * v1.getD i 0 + v1.getD i 0) %
          p.plaintextModulus) := by
  refine ⟨_, _, _, _, _, encrypt_ok p v1 m1 (le_of_eq h1.symm),
    encrypt_ok p v2 m2 (le_of_eq h2.symm),
    mult_ok p _ _ _ _ [] [] [] [] r (by simp) (by simp) (by simp),
    multOverflow_ok p _ _ _ _ [] [] [] [] (by simp) (by simp) (by simp),
    sumOverflow_ok p _ _ (by simp), ?_⟩
  set t := p.plaintextModulus with htdef
  set A1list := (List.range p.maxSlots).map
    (fun j => encryptLabel t (v1.getD j 0) (m1 j)) with hA1def
  set A2list := (List.range p.maxSlots).map
    (fun j => encryptLabel t (v2.getD j 0) (m2 j)) with hA2def
  set beta1 := encodeVec p ((List.range p.maxSlots).map m1) with hb1def
  set beta2 := encodeVec p ((List.range p.maxSlots).map m2) with hb2def
  set AMlist := (List.range A1list.length).map
    (fun j => multLabel t (A1list.getD j 0) (A2list.getD j 0) (r j)) with hAMdef
  set betaM := ctAdd p
    (ctAdd p (ctAdd p (ctMulRelin p beta1 beta2) (ctMulPt p beta1 A2list))
      (ctMulPt p beta2 A1list))
    (encodeVec p ((List.range p.maxSlots).map r)) with hbMdef
  set alphaO := ctAdd p
    (ctAdd p
      (encodeVec p ((List.range A1list.length).map fun j =>
        u64mul (A1list.getD j 0) (AMlist.getD j 0) % t))
      (ctMulPt p betaM A1list))
    (ctMulPt p beta1 AMlist) with haOdef
  dsimp only
  refine List.ext_getElem (by simp [DecryptOverflow]) ?_
  intro i hi1 hi2
  simp only [DecryptOverflow, List.length_map, List.length_range] at hi1
  rw [← List.getD_eq_getElem _ 0, ← List.getD_eq_getElem _ 0,
    getD_range_map _ _ _ hi1]
  have hv1i : v1.getD i 0 < t := getD_lt ht hv1 i
  have hv2i : v2.getD i 0 < t := getD_lt ht hv2 i
  have hiA1 : i < A1list.length := by rw [hA1def]; simpa using hi1
  have eA1 : A1list.getD i 0 = (v1.getD i 0 + t - m1 i) % t := by
    rw [hA1def, getD_range_map _ _ _ hi1, encryptLabel_eq (hm1 i) ht2 (by omega)]
  have eA2 : A2list.getD i 0 = (v2.getD i 0 + t - m2 i) % t := by
    rw [hA2def, getD_range_map _ _ _ hi1, encryptLabel_eq (hm2 i) ht2 (by omega)]
  have eB1 : beta1.getD i 0 = m1 i := by
    rw [hb1def, encodeVec_getD p _ hi1, getD_range_map _ _ _ hi1,
      Nat.mod_eq_of_lt (hm1 i)]
  have eB2 : beta2.getD i 0 = m2 i := by
    rw [hb2def, encodeVec_getD p _ hi1, getD_range_map _ _ _ hi1,
      Nat.mod_eq_of_lt (hm2 i)]
  have eAM : AMlist.getD i 0 =
      ((v1.getD i 0 + t - m1 i) % t * ((v2.getD i 0 + t - m2 i) % t) +
        t - r i) % t := by
    rw [hAMdef, getD_range_map _ _ _ hiA1, eA1, eA2,
      multLabel_eq (hr i) ht2 (Nat.mod_lt _ ht) (Nat.mod_lt _ ht)]
  have cA1 : ((A1list.getD i 0 : Nat) : ZMod t) =
      (v1.getD i 0 : ZMod t) - (m1 i : ZMod t) := by
    rw [eA1, label_cast _ (le_of_lt (hm1 i))]
  have cA2 : ((A2list.getD i 0 : Nat) : ZMod t) =
      (v2.getD i 0 : ZMod t) - (m2 i : ZMod t) := by
    rw [eA2, label_cast _ (le_of_lt (hm2 i))]
  have cAM : ((AMlist.getD i 0 : Nat) : ZMod t) =
      ((v1.getD i 0 : ZMod t) - (m1 i : ZMod t)) *
        ((v2.getD i 0 : ZMod t) - (m2 i : ZMod t)) - (r i : ZMod t) := by
    rw [eAM, label_cast _ (le_of_lt (hr i)), Nat.cast_mul,
      label_cast _ (le_of_lt (hm1 i)), label_cast _ (le_of_lt (hm2 i))]
  have cBM : ((betaM.getD i 0 : Nat) : ZMod t) =
      (m1 i : ZMod t) * (m2 i : ZMod t) +
        (m1 i : ZMod t) * ((v2.getD i 0 : ZMod t) - (m2 i : ZMod t)) +
        (m2 i : ZMod t) * ((v1.getD i 0 : ZMod t) - (m1 i : ZMod t)) +
        (r i : ZMod t) := by
    have c0 := multBeta_cast p beta1 beta2 A1list A2list r hi1
    rw [eB1, eB2, cA1, cA2] at c0
    rw [hbMdef]
    exact c0
  have hBMlt : betaM.getD i 0 < t := by
    rw [hbMdef]
    exact ctAdd_getD_lt p _ _ hi1 ht
  have hA1lt : A1list.getD i 0 < 2 ^ 32 := by
    rw [eA1]
    have := Nat.mod_lt (v1.getD i 0 + t - m1 i) ht
    omega
  have hAMlt : AMlist.getD i 0 < 2 ^ 32 := by
    rw [eAM]
    have := Nat.mod_lt
      ((v1.getD i 0 + t - m1 i) % t * ((v2.getD i 0 + t - m2 i) % t) + t - r i)
      ht
    omega
  have cAO : ((alphaO.getD i 0 : Nat) : ZMod t) =
      ((A1list.getD i 0 : Nat) : ZMod t) * ((AMlist.getD i 0 : Nat) : ZMod t) +
        ((betaM.getD i 0 : Nat) : ZMod t) * ((A1list.getD i 0 : Nat) : ZMod t) +
        ((beta1.getD i 0 : Nat) : ZMod t) * ((AMlist.getD i 0 : Nat) : ZMod t) := by
    rw [haOdef]
    exact alphaOverflow_cast p A1list AMlist beta1 betaM hi1 hiA1 hA1lt hAMlt
  rw [cA1, cAM, cBM, eB1] at cAO
  have cS2 := sumBetas_two_cast p [beta1, betaM] [beta1] (i := i) ht ht2
  rw [termProd_pair_cast p beta1 betaM (by rw [eB1]; exact hm1 i) hBMlt ht2,
    termProd_single_cast p beta1 (by rw [eB1]; exact hm1 i) ht2,
    cBM, eB1] at cS2
  have hαS : (ctAddPt p alphaO A1list).getD i 0 < t := by
    rw [ctAddPt_getD p _ _ hi1]
    exact Nat.mod_lt _ ht
  rw [decryptOverflow_getD p _ hi1 ht ht2 hαS]
  show (_ + sumBetas p i ([[beta1, betaM]] ++ [[beta1]]) + _) % _ = _
  simp only [List.cons_append, List.nil_append]
  refine mod_eq_of_cast ?_
  rw [Nat.cast_add, Nat.cast_add, ZMod.natCast_self,
    ctAddPt_getD p _ _ hi1, ZMod.natCast_mod, Nat.cast_add, ZMod.natCast_mod,
    cAO, cA1, cS2]
  push_cast
  ring

/-- Witness for C4 at concrete parameters. -/
theorem C4_witness :
    ∃ c1 c2 cM cO cS, Encrypt ⟨2, 97⟩ [3, 5] (fun _ => 7) = Outcome.ok c1 ∧
      Encrypt ⟨2, 97⟩ [4, 6] (fun _ => 9) = Outcome.ok c2 ∧
      Mult ⟨2, 97⟩ c1 c2 (fun _ => 2) = Outcome.ok cM ∧
      MultOverflow ⟨2, 97⟩ c1 cM = Outcome.ok cO ∧
      SumOverflow ⟨2, 97⟩ cO c1 = Outcome.ok cS ∧
      DecryptOverflow ⟨2, 97⟩ cS = ((List.range 2).map fun i =>
        ([3, 5].getD i 0 * [4, 6].getD i 0 * [3, 5].getD i 0 +
          [3, 5].getD i 0) % 97) :=
  C4_mixed_depth_chain ⟨2, 97⟩ [3, 5] [4, 6] (fun _ => 7) (fun _ => 9)
    (fun _ => 2) (by decide) (by decide) (by decide) (by decide) (by decide)
    (by decide) (fun _ => show (7 : Nat) < 97 by decide)
    (fun _ => show (9 : Nat) < 97 by decide)
    (fun _ => show (2 : Nat) < 97 by decide)

/-- Claim C9 (spec-modelled `RotateColumns`): for every `v` in `Z_t^n`, every
rotation step `k` whose Galois key is in `evk`, and every slot `i` with
`h = n/2`, decrypting `RotateColumns(Encrypt(pk,v), k, evk)` yields
`v[(i+k) mod h]` for `i < h` and `v[h + ((i-h+k) mod h)]` for `i >= h` (the
two-half cyclic shift `rotIndex`), with the shape staying clear and the
bundle staying `[[beta]]`. -/
theorem C9_rotate_columns (p : Parameters) (v : List Nat) (masks : Nat → Nat)
    (k : Nat) (galEls : List Nat) (ht : 0 < p.plaintextModulus)
    (ht2 : p.plaintextModulus ≤ 2 ^ 31) (hlen : v.length = p.maxSlots)
    (hv : ∀ x ∈ v, x < p.plaintextModulus)
    (hm : ∀ i, masks i < p.plaintextModulus) (hk : k ∈ galEls)
    (heven : p.maxSlots % 2 = 0) :
    ∃ c cR, Encrypt p v masks = Outcome.ok c ∧
      RotateColumns p c k galEls = Outcome.ok cR ∧
      Decrypt p cR = Outcome.ok ((List.range p.maxSlots).map fun i =>
        v.getD (rotIndex p.maxSlots k i) 0) ∧
      cR.elementB.length = 1 ∧ (cR.elementB.getD 0 []).length = 1 := by
  refine ⟨_, _, encrypt_ok p v masks (le_of_eq hlen.symm),
    rotate_ok p _ _ [] [] k galEls hk, ?_, by simp, by simp⟩
  rw [decrypt_ok p _ _ [] [] (by simp)]
  refine congrArg Outcome.ok (List.ext_getElem (by simp) ?_)
  intro i hi1 hi2
  simp only [List.length_map, List.length_range] at hi1 hi2
  simp only [List.getElem_map, List.getElem_range]
  have hσ : rotIndex p.maxSlots k i < p.maxSlots := rotIndex_lt heven hi1
  rw [getD_range_map _ _ _ (by simpa using hi1), getD_range_map _ _ _ hσ,
    ctRot_getD p k _ hi1, encodeVec_getD p _ hσ, getD_range_map _ _ _ hσ,
    Nat.mod_eq_of_lt (hm _)]
  exact roundtrip_slot _ _ ht ht2 (getD_lt ht hv _) (hm _)

/-- Witness for C9 at concrete parameters, step `k = 1`. -/
theorem C9_witness :
    ∃ c cR, Encrypt ⟨4, 97⟩ [1, 2, 3, 4] (fun _ => 5) = Outcome.ok c ∧
      RotateColumns ⟨4, 97⟩ c 1 [1] = Outcome.ok cR ∧
      Decrypt ⟨4, 97⟩ cR = Outcome.ok ((List.range 4).map fun i =>
        [1, 2, 3, 4].getD (rotIndex 4 1 i) 0) ∧
      cR.elementB.length = 1 ∧ (cR.elementB.getD 0 []).length = 1 :=
  C9_rotate_columns ⟨4, 97⟩ [1, 2, 3, 4] (fun _ => 5) 1 [1] (by decide)
    (by decide) (by decide) (by decide)
    (fun _ => show (5 : Nat) < 97 by decide) (by decide) (by decide)

/-- Claim C8: every label stored by `Encrypt` and by `Mult`'s
re-randomisation lies in `[0, t)`, and the masks and re-randomisation vectors
come from the rejection sampler at upper bound `max = floor(sqrt t)` with bit
mask `(1 << bitlen(max)) - 1`, so every accepted sample is below
`floor(sqrt t)`. -/
theorem C8_label_bound (p : Parameters) (ht : 0 < p.plaintextModulus)
    (value : List Nat) (masks rands : Nat → Nat) (raws : List Nat) :
    (∀ y, randUniform raws (sqrtT p.plaintextModulus)
        (maskT p.plaintextModulus) = some y →
      y < Nat.sqrt p.plaintextModulus) ∧
    (∀ c, Encrypt p value masks = Outcome.ok c →
      ∀ a ∈ c.elementsA, a < p.plaintextModulus) ∧
    (∀ lc1 lc2 c, Mult p lc1 lc2 rands = Outcome.ok c →
      ∀ a ∈ c.elementsA, a < p.plaintextModulus) := by
  refine ⟨?_, ?_, ?_⟩
  · intro y hy
    have h := List.find?_some hy
    simpa [sqrtT] using of_decide_eq_true h
  · intro c hc
    rw [Encrypt] at hc
    split at hc
    · cases hc
      intro a ha
      obtain ⟨i, -, rfl⟩ := List.mem_map.mp ha
      exact Nat.mod_lt _ ht
    · cases hc
  · intro lc1 lc2 c hc
    rw [Mult] at hc
    split at hc
    · split at hc
      · split at hc
        · cases hc
          intro a ha
          obtain ⟨i, -, rfl⟩ := List.mem_map.mp ha
          exact Nat.mod_lt _ ht
        · cases hc
      · cases hc
    · cases hc

/-- Witness for C8 at concrete parameters. -/
theorem C8_witness :
    (∀ y, randUniform [70000, 9000] (sqrtT 0x3ee0001) (maskT 0x3ee0001) =
        some y → y < Nat.sqrt 0x3ee0001) ∧
    (∀ c, Encrypt ⟨4, 0x3ee0001⟩ [1, 2, 3, 4] (fun _ => 9) = Outcome.ok c →
      ∀ a ∈ c.elementsA, a < 0x3ee0001) ∧
    (∀ lc1 lc2 c, Mult ⟨4, 0x3ee0001⟩ lc1 lc2 (fun _ => 9) = Outcome.ok c →
      ∀ a ∈ c.elementsA, a < 0x3ee0001) :=
  C8_label_bound ⟨4, 0x3ee0001⟩ (by decide) [1, 2, 3, 4] (fun _ => 9)
    (fun _ => 9) [70000, 9000]

/-- Claim C3: for every plaintext vector `v` in `Z_t^n` of length equal to
the slot count and every keypair, `Decrypt(sk, Encrypt(pk, v))` returns `v`
slot-wise mod t (the BGV provider round-trip being ideal in this model, per
spec section 6). -/
theorem C3_decrypt_encrypt_roundtrip (p : Parameters) (v : List Nat)
    (masks : Nat → Nat) (ht : 0 < p.plaintextModulus)
    (ht2 : p.plaintextModulus ≤ 2 ^ 31) (hlen : v.length = p.maxSlots)
    (hv : ∀ x ∈ v, x < p.plaintextModulus)
    (hm : ∀ i, masks i < p.plaintextModulus) :
    ∃ c, Encrypt p v masks = Outcome.ok c ∧ Decrypt p c = Outcome.ok v := by
  rw [Encrypt, if_pos (le_of_eq hlen.symm)]
  refine ⟨_, rfl, ?_⟩
  simp only [Decrypt]
  rw [if_pos (by simp)]
  refine congrArg Outcome.ok (List.ext_getElem (by simp [hlen]) ?_)
  intro i h1 h2
  simp only [List.length_map, List.length_range] at h1
  simp only [List.getElem_map, List.getElem_range]
  have hvi : v.getD i 0 < p.plaintextModulus := getD_lt ht hv i
  rw [getD_range_map _ _ _ h1,
    encodeVec_getD p _ h1, getD_range_map _ _ _ h1,
    Nat.mod_eq_of_lt (hm i),
    encryptLabel_eq (hm i) ht2 (by omega)]
  have e1 : u64add ((v.getD i 0 + p.plaintextModulus - masks i) %
      p.plaintextModulus) (masks i) =
      (v.getD i 0 + p.plaintextModulus - masks i) % p.plaintextModulus +
        masks i := by
    have := Nat.mod_lt (v.getD i 0 + p.plaintextModulus - masks i) ht
    have := hm i
    exact u64add_eq (by simp only [U64]; omega)
  rw [e1]
  have e2 : u64add ((v.getD i 0 + p.plaintextModulus - masks i) %
      p.plaintextModulus + masks i) p.plaintextModulus =
      (v.getD i 0 + p.plaintextModulus - masks i) % p.plaintextModulus +
        masks i + p.plaintextModulus := by
    have := Nat.mod_lt (v.getD i 0 + p.plaintextModulus - masks i) ht
    have := hm i
    exact u64add_eq (by simp only [U64]; omega)
  rw [e2, ← List.getD_eq_getElem v 0 h2]
  refine eq_of_cast_lt hvi ?_
  push_cast
  rw [label_cast (v.getD i 0) (le_of_lt (hm i)), ZMod.natCast_self]
  ring

/-- Witness for C3 at concrete parameters. -/
theorem C3_witness :
    ∃ c, Encrypt ⟨4, 97⟩ [10, 20, 30, 40] (fun _ => 5) = Outcome.ok c ∧
      Decrypt ⟨4, 97⟩ c = Outcome.ok [10, 20, 30, 40] :=
  C3_decrypt_encrypt_roundtrip ⟨4, 97⟩ [10, 20, 30, 40] (fun _ => 5)
    (by decide) (by decide) (by decide) (by decide)
    (fun _ => show (5 : Nat) < 97 by decide)

/-- Claim C10: the Go `uint64` expression `(m - b + t) % t` of `Encrypt`
(labeling.go:95), with `t = 0x3ee0001`, computes exactly the mathematical
`(m - b) mod t`, the unsigned subtraction wrapping mod 2^64 when `b > m`. -/
theorem C10_encrypt_label_wraparound (m b : Nat) (hm : m < 0x3ee0001)
    (hb : b < 0x3ee0001) :
    (encryptLabel 0x3ee0001 m b : Int) = ((m : Int) - (b : Int)) % 0x3ee0001 := by
  rw [encryptLabel_eq hb (by norm_num) (by omega)]
  omega

/-- Witness for C10, at a slot value smaller than the mask. -/
theorem C10_witness :
    (encryptLabel 0x3ee0001 5 9 : Int) = ((5 : Int) - (9 : Int)) % 0x3ee0001 :=
  C10_encrypt_label_wraparound 5 9 (by decide) (by decide)

/-- Claim C6 (code bug): `NewParametersFromLiteral` ignores all four of its
arguments and always returns the hardcoded literal
`(logN=14, logQ=[56,55,55,54,54,54], logP=[55,55], t=0x3ee0001)`; two calls
with different argument tuples yield identical parameters, and the returned
plaintext modulus is not the given one. -/
theorem C6_newParameters_ignores_arguments :
    NewParametersFromLiteral 13 [30, 30] [30] 17 =
      NewParametersFromLiteral 14 [56, 55, 55, 54, 54, 54] [55, 55] 0x3ee0001 ∧
    (NewParametersFromLiteral 13 [30, 30] [30] 17).plaintextModulus =
      0x3ee0001 ∧
    (NewParametersFromLiteral 13 [30, 30] [30] 17).logN = 14 := by
  exact ⟨rfl, rfl, rfl⟩

/-- Counterexample to claim C7 as stated: passing a vector shorter than
`MaxSlots` to `Encrypt` under the repository's actual parameters does not
return an error — the slot loop indexes `value[i]` out of range, a runtime
panic. -/
theorem C7_counterexample :
    Encrypt (paramsOf (NewParametersFromLiteral 14 [56, 55, 55, 54, 54, 54]
        [55, 55] 0x3ee0001)) [10, 20, 30] (fun _ => 0) = Outcome.panic ∧
    (Outcome.panic : Outcome PlaintextLabeledciphertext) ≠ Outcome.err := by
  refine ⟨?_, fun h => Outcome.noConfusion h⟩
  rw [Encrypt, if_neg (by decide)]

/-- Claim C7 as amended: an input vector shorter than the slot count makes
`Encrypt` fail by an index-out-of-range panic, not by an error return, and
`Sum` likewise panics when the second operand's label vector is shorter than
the first's. -/
theorem C7_short_input_panics (p : Parameters) (value : List Nat)
    (masks : Nat → Nat) (lc1 lc2 : PlaintextLabeledciphertext)
    (h1 : value.length < p.maxSlots)
    (h2 : lc2.elementsA.length < lc1.elementsA.length) :
    Encrypt p value masks = Outcome.panic ∧ Sum p lc1 lc2 = Outcome.panic := by
  constructor
  · rw [Encrypt, if_neg (by omega)]
  · rw [Sum, if_neg (by omega)]

/-- Witness for the amended C7 at concrete inputs. -/
theorem C7_witness :
    Encrypt ⟨4, 97⟩ [1, 2] (fun _ => 0) = Outcome.panic ∧
      Sum ⟨4, 97⟩ ⟨[1, 2], [[[0]]]⟩ ⟨[1], [[[0]]]⟩ = Outcome.panic :=
  C7_short_input_panics ⟨4, 97⟩ [1, 2] (fun _ => 0) ⟨[1, 2], [[[0]]]⟩
    ⟨[1], [[[0]]]⟩ (by decide) (by decide)

end Labeling
